import Mathlib

/-!
Verification of the arithmetic/range gadgets of the zk-fhe-playground
repository.  Each namespace shallowly embeds one source file:

* `Oracle`        — `div_euclid` from `src/examples/poly_divide_by_cyclo.rs`
                    (the out-of-circuit polynomial long-division oracle);
* `DivCircuit`    — the constraint-emitting part of `poly_divide_by_cyclo`;
* `ChiError`      — `check_poly_from_distribution` from
                    `src/examples/check_poly_from_distribution_chi_error.rs`;
* `ChiKey`        — `check_poly_from_distribution` from
                    `src/examples/check_poly_from_distribution_chi_key.rs`;
* `Conv`          — the convolution loop of `src/examples/poly_mul.rs`;
* `ScalarMul`     — `poly_scalar_mul` from `src/examples/polyscalarmul.rs`;
* `Assign`        — the witness-assignment cast `F::from(x as u64)` used for
                    the signed `i8` coefficient vectors.

Machine integers are embedded as `ℕ`/`ℤ`.  Rust's `i8` arithmetic inside
`div_euclid` is embedded twice: a checked model (`Oracle.divEuclidChk`)
with debug-profile semantics, where division by zero or any intermediate
result outside `[-128, 127]` aborts the run (`none`), and an
integer-valued companion (`Oracle.divEuclid`, with `Int.tdiv`, the
truncation semantics of Rust's `/` on signed integers) that agrees with
the checked model on every fault-free run (`Oracle.divLoopChkAux_agrees`).
Fallible construction (Rust `assert!`/`panic!` aborts) is embedded as
`Option`.
-/

namespace Oracle

/-- The ratio of leading coefficients taken by one iteration of the
`div_euclid` loop (`src/examples/poly_divide_by_cyclo.rs:162`):
`dividend[0] / g[0]` with Rust's truncated signed division.  This is the
total value-level companion; the program's aborts on `g[0] = 0` and on
the overflowing `-128 / -1` are modelled by `i8div` below, which returns
this same value whenever it does not abort. -/
def leadRatio (g d : List ℤ) : ℤ :=
  Int.tdiv (d.getD 0 0) (g.getD 0 0)

/-- The subtraction pass of one iteration of the `div_euclid` loop
(lines 165-168): `dividend[i] -= ratio * g[i]` for `i < g.len()`, the
remaining entries of the dividend unchanged.  Unbounded integer values;
the `i8` overflow aborts of the source are modelled by `subStepChk`
below, which computes these same values whenever it does not abort. -/
def subStep (g d : List ℤ) : List ℤ :=
  (List.zipWith (fun di gi => di - leadRatio g d * gi) d g) ++ d.drop g.length

/-- The `while dividend.len() > divisor_degree` loop of `div_euclid`
(lines 161-171), fuelled so that it computes by kernel reduction:
each iteration pushes the leading-coefficient ratio on the quotient,
runs the subtraction pass, and removes the leading dividend element
(`dividend.remove(0)`).  Returns (quotient, final dividend). -/
def divLoopAux (g : List ℤ) : ℕ → List ℤ → List ℤ × List ℤ
  | 0, d => ([], d)
  | fuel + 1, d =>
    if d.length > g.length - 1 then
      (leadRatio g d :: (divLoopAux g fuel ((subStep g d).drop 1)).1,
       (divLoopAux g fuel ((subStep g d).drop 1)).2)
    else ([], d)

/-- The loop of `div_euclid` with its actual (data-dependent) trip count:
fuel `d.length` always suffices because each iteration removes exactly one
leading element of the dividend (`divLoopAux_stable` makes this exact). -/
def divLoop (g d : List ℤ) : List ℤ × List ℤ :=
  divLoopAux g d.length d

/-- The trailing `while !v.is_empty() && v[0] == 0 do v.remove(0)` trim
loops of `div_euclid` (lines 174-180): drop leading zero coefficients. -/
def trimZeros (v : List ℤ) : List ℤ :=
  v.dropWhile (fun x => x == 0)

/-- `div_euclid` (`src/examples/poly_divide_by_cyclo.rs:151-184`).  The
`panic!("Cannot divide by a zero polynomial!")` branch is embedded as
`none`.  Coefficient vectors are big-endian: first element = leading
coefficient, last element = constant term.  `none` here covers only the
entry guard; the program's further mid-loop aborts (division by zero for
a leading-zero divisor, `i8` overflow) are modelled by `divEuclidChk`
below, whose successful runs this function reproduces exactly
(`divEuclidChk_agrees`). -/
def divEuclid (f g : List ℤ) : Option (List ℤ × List ℤ) :=
  if g.isEmpty || g.all (fun x => x == 0) then none
  else
    some (trimZeros (divLoop g f).1, trimZeros (divLoop g f).2)

/-- Value of a big-endian coefficient vector as a polynomial function of
`x` (Horner evaluation).  Two coefficient vectors represent the same
polynomial over `ℤ` iff they evaluate equally everywhere, so the division
identity is stated through `evalPoly`. -/
def evalPoly (l : List ℤ) (x : ℤ) : ℤ :=
  l.foldl (fun acc c => acc * x + c) 0

theorem foldl_horner (l : List ℤ) (x : ℤ) :
    ∀ a : ℤ, l.foldl (fun acc c => acc * x + c) a
      = a * x ^ l.length + evalPoly l x := by
  induction l with
  | nil => intro a; simp [evalPoly]
  | cons c t ih =>
    intro a
    have hc : evalPoly (c :: t) x = c * x ^ t.length + evalPoly t x := by
      show t.foldl (fun acc c => acc * x + c) (0 * x + c)
          = c * x ^ t.length + evalPoly t x
      rw [ih (0 * x + c)]; ring
    show t.foldl (fun acc c => acc * x + c) (a * x + c)
        = a * x ^ (c :: t).length + evalPoly (c :: t) x
    rw [ih (a * x + c), hc, List.length_cons]
    ring

theorem evalPoly_cons (c : ℤ) (t : List ℤ) (x : ℤ) :
    evalPoly (c :: t) x = c * x ^ t.length + evalPoly t x := by
  show t.foldl (fun acc c => acc * x + c) (0 * x + c)
      = c * x ^ t.length + evalPoly t x
  rw [foldl_horner t x (0 * x + c)]; ring

theorem subStep_length (g d : List ℤ) :
    (subStep g d).length = d.length := by
  simp only [subStep, List.length_append, List.length_zipWith,
    List.length_drop]
  omega

theorem divLoopAux_stable (g : List ℤ) :
    ∀ (n : ℕ) (d : List ℤ), d.length - (g.length - 1) ≤ n →
      divLoopAux g (n + 1) d = divLoopAux g n d := by
  intro n
  induction n with
  | zero =>
    intro d hd
    show divLoopAux g 1 d = ([], d)
    rw [divLoopAux, if_neg (by omega)]
  | succ n ih =>
    intro d hd
    conv_lhs => rw [divLoopAux]
    conv_rhs => rw [divLoopAux]
    by_cases h : d.length > g.length - 1
    · rw [if_pos h, if_pos h]
      have h2 : ((subStep g d).drop 1).length - (g.length - 1) ≤ n := by
        rw [List.length_drop, subStep_length]
        omega
      rw [ih _ h2]
    · rw [if_neg h, if_neg h]

theorem divLoopAux_ge (g d : List ℤ) :
    ∀ n, d.length - (g.length - 1) ≤ n →
      divLoopAux g n d = divLoopAux g (d.length - (g.length - 1)) d := by
  intro n hn
  induction n, hn using Nat.le_induction with
  | base => rfl
  | succ n hn ih => rw [divLoopAux_stable g n d hn, ih]

theorem divLoop_eq (g d : List ℤ) :
    divLoop g d =
      if d.length > g.length - 1 then
        (leadRatio g d :: (divLoop g ((subStep g d).drop 1)).1,
         (divLoop g ((subStep g d).drop 1)).2)
      else ([], d) := by
  rcases hn : d.length with _ | m
  · have hd0 : d = [] := List.length_eq_zero.mp hn
    subst hd0
    rw [if_neg (by simp)]
    rfl
  · show divLoopAux g d.length d = _
    rw [hn, divLoopAux]
    by_cases h : d.length > g.length - 1
    · rw [if_pos h, if_pos (show m + 1 > g.length - 1 from hn ▸ h)]
      have h3 : ((subStep g d).drop 1).length = m := by
        rw [List.length_drop, subStep_length, hn]
        omega
      rw [show divLoop g ((subStep g d).drop 1)
            = divLoopAux g m ((subStep g d).drop 1) from by rw [divLoop, h3]]
    · rw [if_neg h, if_neg (show ¬ m + 1 > g.length - 1 from hn ▸ h)]

theorem evalPoly_nil (x : ℤ) : evalPoly [] x = 0 := rfl

theorem divLoop_exit (g d : List ℤ) (h : ¬ d.length > g.length - 1) :
    divLoop g d = ([], d) := by
  rw [divLoop_eq, if_neg h]

theorem divLoop_quot_length (g : List ℤ) :
    ∀ (n : ℕ) (d : List ℤ), d.length ≤ n →
      (divLoop g d).1.length = d.length - (g.length - 1) := by
  intro n
  induction n with
  | zero =>
    intro d hd
    have hd0 : d = [] := List.length_eq_zero.mp (Nat.le_zero.mp hd)
    subst hd0
    rw [divLoop_exit g [] (by simp)]
    simp
  | succ n ih =>
    intro d hd
    rw [divLoop_eq]
    by_cases h : d.length > g.length - 1
    · rw [if_pos h]
      have hlen : ((subStep g d).drop 1).length = d.length - 1 := by
        rw [List.length_drop, subStep_length]
      have := ih ((subStep g d).drop 1) (by omega)
      simp only [List.length_cons, this, hlen]
      omega
    · rw [if_neg h]
      simp only [List.length_nil]
      omega

theorem divLoop_rem_length (g : List ℤ) :
    ∀ (n : ℕ) (d : List ℤ), d.length ≤ n →
      (divLoop g d).2.length ≤ g.length - 1 := by
  intro n
  induction n with
  | zero =>
    intro d hd
    have hd0 : d = [] := List.length_eq_zero.mp (Nat.le_zero.mp hd)
    subst hd0
    rw [divLoop_exit g [] (by simp)]
    simp
  | succ n ih =>
    intro d hd
    rw [divLoop_eq]
    by_cases h : d.length > g.length - 1
    · rw [if_pos h]
      have hlen : ((subStep g d).drop 1).length = d.length - 1 := by
        rw [List.length_drop, subStep_length]
      exact ih ((subStep g d).drop 1) (by omega)
    · rw [if_neg h]
      show d.length ≤ g.length - 1
      omega

theorem evalPoly_zip_sub (r x : ℤ) :
    ∀ (g d : List ℤ), g.length ≤ d.length →
      evalPoly ((List.zipWith (fun di gi => di - r * gi) d g)
          ++ d.drop g.length) x
        = evalPoly d x - r * x ^ (d.length - g.length) * evalPoly g x := by
  intro g
  induction g with
  | nil =>
    intro d _
    simp [evalPoly_nil]
  | cons g0 gt ih =>
    intro d hlen
    match d with
    | [] => simp at hlen
    | d0 :: dt =>
      have hle : gt.length ≤ dt.length := by
        simp only [List.length_cons] at hlen
        omega
      have hrest : ((List.zipWith (fun di gi => di - r * gi) dt gt)
          ++ dt.drop gt.length).length = dt.length := by
        simp only [List.length_append, List.length_zipWith, List.length_drop]
        omega
      show evalPoly ((d0 - r * g0) :: ((List.zipWith
          (fun di gi => di - r * gi) dt gt) ++ dt.drop gt.length)) x = _
      rw [evalPoly_cons, hrest, ih dt hle, evalPoly_cons d0 dt,
        evalPoly_cons g0 gt]
      simp only [List.length_cons]
      have hp : x ^ (dt.length - gt.length) * x ^ gt.length
          = x ^ dt.length := by
        rw [← pow_add, Nat.sub_add_cancel hle]
      have hss : dt.length + 1 - (gt.length + 1) = dt.length - gt.length := by
        omega
      rw [hss]
      linear_combination (r * g0) * hp

theorem evalPoly_subStep (g d : List ℤ) (x : ℤ) (h : g.length ≤ d.length) :
    evalPoly (subStep g d) x
      = evalPoly d x
        - leadRatio g d * x ^ (d.length - g.length) * evalPoly g x :=
  evalPoly_zip_sub (leadRatio g d) x g d h

theorem evalPoly_subStep_drop (g d : List ℤ) (x : ℤ)
    (hg : g.getD 0 0 = 1) (hd : d ≠ []) :
    evalPoly ((subStep g d).drop 1) x = evalPoly (subStep g d) x := by
  obtain ⟨g0, gt, rfl⟩ := List.exists_cons_of_ne_nil
    (show g ≠ [] by intro hh; rw [hh] at hg; simp [List.getD] at hg)
  obtain ⟨d0, dt, rfl⟩ := List.exists_cons_of_ne_nil hd
  have hg0 : g0 = 1 := by simpa using hg
  have hlr : leadRatio (g0 :: gt) (d0 :: dt) = d0 := by
    simp [leadRatio, hg0, Int.tdiv_one]
  show evalPoly ((List.zipWith
      (fun di gi => di - leadRatio (g0 :: gt) (d0 :: dt) * gi) dt gt)
      ++ dt.drop gt.length) x
    = evalPoly ((d0 - leadRatio (g0 :: gt) (d0 :: dt) * g0) ::
        ((List.zipWith
          (fun di gi => di - leadRatio (g0 :: gt) (d0 :: dt) * gi) dt gt)
          ++ dt.drop gt.length)) x
  rw [evalPoly_cons, hlr, hg0]
  ring

theorem divLoop_identity (g : List ℤ) (hg : g.getD 0 0 = 1) :
    ∀ (n : ℕ) (d : List ℤ), d.length ≤ n → ∀ x : ℤ,
      evalPoly (divLoop g d).1 x * evalPoly g x + evalPoly (divLoop g d).2 x
        = evalPoly d x := by
  intro n
  induction n with
  | zero =>
    intro d hd x
    have hd0 : d = [] := List.length_eq_zero.mp (Nat.le_zero.mp hd)
    subst hd0
    rw [divLoop_exit g [] (by simp)]
    simp [evalPoly_nil]
  | succ n ih =>
    intro d hd x
    rw [divLoop_eq]
    by_cases h : d.length > g.length - 1
    · rw [if_pos h]
      have hgne : g ≠ [] := by
        intro hgg; rw [hgg] at hg; simp [List.getD] at hg
      have hglen : 1 ≤ g.length := by
        cases g with
        | nil => exact absurd rfl hgne
        | cons a l => simp
      have hdg : g.length ≤ d.length := by omega
      have hdne : d ≠ [] := by
        intro hh
        rw [hh] at h
        simp only [List.length_nil] at h
        omega
      have hds_eval : evalPoly ((subStep g d).drop 1) x
          = evalPoly d x
            - leadRatio g d * x ^ (d.length - g.length) * evalPoly g x := by
        rw [evalPoly_subStep_drop g d x hg hdne, evalPoly_subStep g d x hdg]
      have hqlen : (divLoop g ((subStep g d).drop 1)).1.length
          = d.length - g.length := by
        rw [divLoop_quot_length g ((subStep g d).drop 1).length _ le_rfl,
          List.length_drop, subStep_length]
        omega
      have hih := ih ((subStep g d).drop 1)
        (by rw [List.length_drop, subStep_length]; omega) x
      rw [evalPoly_cons, hqlen]
      linear_combination hih + hds_eval
    · rw [if_neg h]
      simp [evalPoly_nil]

theorem trimZeros_eval (v : List ℤ) (x : ℤ) :
    evalPoly (trimZeros v) x = evalPoly v x := by
  induction v with
  | nil => rfl
  | cons c t ih =>
    by_cases hc : c = 0
    · subst hc
      rw [show trimZeros ((0 : ℤ) :: t) = trimZeros t from by
        simp [trimZeros, List.dropWhile]]
      rw [ih, evalPoly_cons]
      ring
    · have hbeq : (c == (0 : ℤ)) = false := by simpa using hc
      rw [show trimZeros (c :: t) = c :: t from by
        simp [trimZeros, List.dropWhile, hbeq]]

theorem trimZeros_length_le (v : List ℤ) :
    (trimZeros v).length ≤ v.length :=
  (List.dropWhile_suffix (fun x => x == 0)).length_le

theorem trimZeros_idem (v : List ℤ) :
    trimZeros (trimZeros v) = trimZeros v :=
  List.dropWhile_idempotent (fun x => x == 0) v

/-- Checked `i8` value: Rust's debug-profile machine arithmetic panics
(aborting construction) whenever an intermediate result leaves
`[-128, 127]`.  The checked variants below thread this through
`div_euclid`; the unchecked `ℤ` functions above are the value-level
companions, exact on every fault-free run (`divLoopChkAux_agrees`). -/
def i8chk (z : ℤ) : Option ℤ :=
  if -128 ≤ z ∧ z ≤ 127 then some z else none

/-- Checked `i8` division `a / b`: Rust panics on division by zero and on
the overflowing case `-128 / -1`. -/
def i8div (a b : ℤ) : Option ℤ :=
  if b = 0 then none else i8chk (Int.tdiv a b)

/-- The subtraction pass of one `div_euclid` iteration with checked `i8`
arithmetic: `dividend[i] - ratio * g[i]` for `i < g.len()` (both the
product and the difference can overflow and abort), remaining dividend
entries unchanged; `none` also covers the index-out-of-bounds panic when
the dividend is shorter than the divisor. -/
def subStepChk (r : ℤ) : List ℤ → List ℤ → Option (List ℤ)
  | d, [] => some d
  | [], _ :: _ => none
  | d0 :: dt, g0 :: gt =>
    (i8chk (r * g0)).bind fun p =>
      (i8chk (d0 - p)).bind fun s =>
        (subStepChk r dt gt).bind fun rest => some (s :: rest)

/-- The `while` loop of `div_euclid` with checked `i8` arithmetic:
`none` means some iteration hit a machine-arithmetic fault (overflow or
division by zero), on which the program aborts. -/
def divLoopChkAux (g : List ℤ) : ℕ → List ℤ → Option (List ℤ × List ℤ)
  | 0, d => some ([], d)
  | fuel + 1, d =>
    if d.length > g.length - 1 then
      (i8div (d.getD 0 0) (g.getD 0 0)).bind fun r =>
        (subStepChk r d g).bind fun d2 =>
          (divLoopChkAux g fuel (d2.drop 1)).bind fun out =>
            some (r :: out.1, out.2)
    else some ([], d)

/-- `div_euclid` with checked `i8` arithmetic: `none` collects every abort
of the source — the explicit zero-polynomial panic at entry and any
machine-arithmetic fault inside the loop. -/
def divEuclidChk (f g : List ℤ) : Option (List ℤ × List ℤ) :=
  if g.isEmpty || g.all (fun x => x == 0) then none
  else
    (divLoopChkAux g f.length f).bind fun qr =>
      some (trimZeros qr.1, trimZeros qr.2)

theorem i8chk_eq (z y : ℤ) (h : i8chk z = some y) : y = z := by
  unfold i8chk at h
  split_ifs at h
  exact (Option.some.inj h).symm

theorem i8div_eq (a b y : ℤ) (h : i8div a b = some y) : y = Int.tdiv a b := by
  unfold i8div at h
  split_ifs at h
  exact i8chk_eq _ _ h

theorem subStepChk_agrees (r : ℤ) :
    ∀ (g d l : List ℤ), subStepChk r d g = some l →
      l = (List.zipWith (fun di gi => di - r * gi) d g)
            ++ d.drop g.length := by
  intro g
  induction g with
  | nil =>
    intro d l h
    rw [subStepChk] at h
    simp only [Option.some.injEq] at h
    simp [← h]
  | cons g0 gt ih =>
    intro d l h
    cases d with
    | nil => rw [subStepChk] at h; simp at h
    | cons d0 dt =>
      rw [subStepChk] at h
      simp only [Option.bind_eq_some, Option.some.injEq] at h
      obtain ⟨p, hp, s, hs, rest, hrest, hl⟩ := h
      have hp2 := i8chk_eq _ _ hp
      have hs2 := i8chk_eq _ _ hs
      have hrest2 := ih dt rest hrest
      rw [← hl, hs2, hp2, hrest2]
      rfl

theorem divLoopChkAux_agrees (g : List ℤ) :
    ∀ (n : ℕ) (d q r : List ℤ), divLoopChkAux g n d = some (q, r) →
      divLoopAux g n d = (q, r) := by
  intro n
  induction n with
  | zero =>
    intro d q r h
    rw [divLoopChkAux] at h
    simp only [Option.some.injEq, Prod.mk.injEq] at h
    rw [divLoopAux, h.1, h.2]
  | succ n ih =>
    intro d q r h
    rw [divLoopChkAux] at h
    rw [divLoopAux]
    by_cases hguard : d.length > g.length - 1
    · rw [if_pos hguard] at h
      rw [if_pos hguard]
      simp only [Option.bind_eq_some, Option.some.injEq,
        Prod.mk.injEq] at h
      obtain ⟨r0, hr, d2, hd2, out, hout, hq, hrr⟩ := h
      have hr2 : r0 = leadRatio g d := i8div_eq _ _ _ hr
      have hd2eq : d2 = subStep g d := by
        rw [subStepChk_agrees r0 g d d2 hd2, hr2]
        rfl
      have hrec := ih (d2.drop 1) out.1 out.2 (by rw [hout])
      rw [hd2eq] at hrec
      rw [hrec, ← hq, ← hrr, hr2]
    · rw [if_neg hguard] at h
      rw [if_neg hguard]
      simp only [Option.some.injEq, Prod.mk.injEq] at h
      rw [h.1, h.2]

theorem divEuclidChk_agrees (f g q r : List ℤ)
    (h : divEuclidChk f g = some (q, r)) :
    divEuclid f g = some (q, r) := by
  rw [divEuclidChk] at h
  rw [divEuclid]
  split_ifs at h ⊢ with hguard
  simp only [Option.bind_eq_some, Option.some.injEq, Prod.mk.injEq] at h
  obtain ⟨qr, hqr, hq, hr⟩ := h
  have hax := divLoopChkAux_agrees g f.length f qr.1 qr.2 (by rw [hqr])
  rw [show divLoop g f = (qr.1, qr.2) from hax, ← hq, ← hr]

/-- C5, counterexample.  The claim states that for EVERY dividend and every
non-zero divisor, `div_euclid` returns `(quotient, remainder)` with
`quotient * divisor + remainder = dividend` exactly over the integers.
Two failures: dividing the constant polynomial `1` by the constant
polynomial `2` takes the truncated `i8` ratio `1 / 2 = 0`, drops the
leading element, and returns quotient `0`, remainder `0`
(`some ([], [])` after trimming) with `0 * 2 + 0 ≠ 1`; and on the monic
divisor `[1, 10]` with dividend `[10, 0, 0]` the second iteration
computes `-100 * 10 = -1000`, an `i8` overflow, so the program aborts
instead of returning any pair at all. -/
theorem c5_counterexample :
    divEuclidChk [1] [2] = some ([], []) ∧
    ¬ (evalPoly ([] : List ℤ) 0 * evalPoly [2] 0 + evalPoly ([] : List ℤ) 0
        = evalPoly [1] 0) ∧
    divEuclidChk [10, 0, 0] [1, 10] = none := by
  refine ⟨by decide, by decide, by decide⟩

/-- C5, amended: for every dividend `f` and divisor `g` whose leading
coefficient is `1` (monic, as the cyclotomic divisors `x^M + 1` this
oracle is used with), IF the checked `i8` long division completes without
a machine-arithmetic fault (otherwise the program aborts instead of
returning), THEN `quotient * divisor + remainder = dividend` exactly over
the integers (stated pointwise through `evalPoly`, which determines the
polynomial over the infinite domain `ℤ`) and the remainder has fewer
coefficients than the divisor (`degree(remainder) < degree(divisor)`). -/
theorem c5_div_euclid_checked_identity (f g q r : List ℤ)
    (hg : g.getD 0 0 = 1) (h : divEuclidChk f g = some (q, r)) :
    (∀ x : ℤ,
      evalPoly q x * evalPoly g x + evalPoly r x = evalPoly f x) ∧
    r.length < g.length := by
  have hgne : g ≠ [] := by
    intro hh; rw [hh] at hg; simp [List.getD] at hg
  have hglen : 1 ≤ g.length := by
    cases g with
    | nil => exact absurd rfl hgne
    | cons a l => simp
  have hag : divEuclid f g = some (q, r) := divEuclidChk_agrees f g q r h
  rw [divEuclid] at hag
  split_ifs at hag with hguard
  simp only [Option.some.injEq, Prod.mk.injEq] at hag
  obtain ⟨hq, hr⟩ := hag
  constructor
  · intro x
    rw [← hq, ← hr, trimZeros_eval, trimZeros_eval]
    exact divLoop_identity g hg f.length f le_rfl x
  · have h1 := trimZeros_length_le (divLoop g f).2
    have h2 := divLoop_rem_length g f.length f le_rfl
    have h3 : r.length ≤ (divLoop g f).2.length := by
      rw [← hr]
      exact trimZeros_length_le _
    omega

/-- Witness for C5 at the spec's own example: `x^4 + 1` divided by
`x^2 + 1` (big-endian `[1,0,0,0,1]` and `[1,0,1]`) completes the checked
division with quotient `[1,0,-1]` and remainder `[2]`; the identity is
evaluated at `x = 2` and the degree bound checked. -/
theorem c5_div_euclid_checked_identity_witness :
    evalPoly [1, 0, -1] 2 * evalPoly [1, 0, 1] 2 + evalPoly [2] 2
      = evalPoly [1, 0, 0, 0, 1] 2 ∧
    ([2] : List ℤ).length < ([1, 0, 1] : List ℤ).length :=
  have h := c5_div_euclid_checked_identity [1, 0, 0, 0, 1] [1, 0, 1]
    [1, 0, -1] [2] rfl (by decide)
  ⟨h.1 2, h.2⟩

/-- C9: for every dividend `f` and divisor `g` accepted by `div_euclid`
(non-empty, not all-zero), if `div_euclid f g = (q, r)` then re-dividing
the remainder by the same divisor returns quotient `[]` (the trimmed
coefficient vector of the zero polynomial) and the remainder unchanged:
the remainder is strictly shorter than the divisor, so the long-division
loop exits immediately, and the remainder is already trimmed, so the
final trim pass leaves it unchanged. -/
theorem c9_div_euclid_idempotent (f g q r : List ℤ)
    (h : divEuclid f g = some (q, r)) :
    divEuclid r g = some ([], r) := by
  have hgf : (g.isEmpty || g.all (fun x => x == 0)) = false := by
    by_cases hguard : (g.isEmpty || g.all (fun x => x == 0)) = true
    · rw [divEuclid, if_pos hguard] at h
      exact absurd h (by simp)
    · exact Bool.eq_false_iff.mpr hguard
  rw [divEuclid, hgf] at h
  simp only [Bool.false_eq_true, if_false, Option.some.injEq,
    Prod.mk.injEq] at h
  obtain ⟨h1, h2⟩ := h
  have hrlen : r.length ≤ g.length - 1 := by
    rw [← h2]
    exact le_trans (trimZeros_length_le _)
      (divLoop_rem_length g f.length f le_rfl)
  have hrtrim : trimZeros r = r := by rw [← h2, trimZeros_idem]
  rw [divEuclid, hgf]
  simp only [Bool.false_eq_true, if_false, Option.some.injEq, Prod.mk.injEq]
  rw [divLoop_exit g r (by omega)]
  exact ⟨rfl, hrtrim⟩

/-- Witness for C9 at the spec's example: the remainder `[2]` of
`[1,0,0,0,1] / [1,0,1]` re-divided by `[1,0,1]` gives quotient `[]` and
remainder `[2]` unchanged. -/
theorem c9_div_euclid_idempotent_witness :
    divEuclid [2] [1, 0, 1] = some ([], [2]) :=
  c9_div_euclid_idempotent [1, 0, 0, 0, 1] [1, 0, 1] [1, 0, -1] [2]
    (by decide)

/-- C10: the long-division loop of `div_euclid` terminates on every input:
each iteration removes exactly one leading element of the dividend, so the
loop runs exactly `len(dividend) - (len(divisor) - 1)` iterations (one
quotient coefficient is pushed per iteration, first conjunct), and any
fuel of at least that many steps already computes the loop's final result
(second conjunct), which is the well-founded-termination bound of the
claim. -/
theorem c10_div_loop_terminates (g d : List ℤ) :
    (divLoop g d).1.length = d.length - (g.length - 1) ∧
    ∀ n, d.length - (g.length - 1) ≤ n → divLoopAux g n d = divLoop g d := by
  constructor
  · exact divLoop_quot_length g d.length d le_rfl
  · intro n hn
    rw [divLoopAux_ge g d n hn]
    show _ = divLoopAux g d.length d
    rw [divLoopAux_ge g d d.length (by omega)]

/-- Witness for C10: on the example dividend of length 5 and divisor of
length 3, fuel `5 - (3 - 1) = 3` already computes the loop result. -/
theorem c10_div_loop_terminates_witness :
    divLoopAux [1, 0, 1] 3 [1, 0, 0, 0, 1]
      = divLoop [1, 0, 1] [1, 0, 0, 0, 1] :=
  (c10_div_loop_terminates [1, 0, 1] [1, 0, 0, 0, 1]).2 3 (by decide)

end Oracle

namespace ChiError

/-- Degree constant `N` of `check_poly_from_distribution_chi_error.rs:17`. -/
def N : ℕ := 3

/-- Field-modulus constant `Q = 2u64.pow(8)` (line 18); the source comment
declares it "modulus of the field F_q". -/
def Q : ℕ := 2 ^ 8

/-- Distribution bound `B` (line 19): the symmetric range is `[-B, B]`. -/
def B : ℕ := 30

/-- Boolean result of the external range-check provider's
`is_less_than_safe(value, bound)` (spec §6 boundary operation
`less_than(value, bound) -> bool`): the 0/1 bit of `value < bound`. -/
def ltBit (v bound : ℕ) : ℕ := if v < bound then 1 else 0

/-- Boolean negation gate `gate.not` on a 0/1 bit: `1 - b`. -/
def notBit (b : ℕ) : ℕ := 1 - b

/-- Boolean conjunction gate `gate.and` on 0/1 bits: `a * b`. -/
def andBit (a b : ℕ) : ℕ := a * b

/-- Boolean disjunction gate `gate.or` on 0/1 bits: `a + b - a * b`. -/
def orBit (a b : ℕ) : ℕ := a + b - a * b

/-- Step 1 of the gadget (lines 68-72): `coeff < B + 1`. -/
def in_partial_range_1 (v : ℕ) : ℕ := ltBit v (B + 1)

/-- Step 2, lower bound (lines 80-86): `coeff ≥ Q - B`, expressed as the
negation of `coeff < Q - B`. -/
def in_range_lower_bound (v : ℕ) : ℕ := notBit (ltBit v (Q - B))

/-- Step 2, upper bound (lines 88-92): `coeff < Q`. -/
def in_range_upper_bound (v : ℕ) : ℕ := ltBit v Q

/-- Step 2 combined (lines 95-100): lower AND upper. -/
def in_partial_range_2 (v : ℕ) : ℕ :=
  andBit (in_range_lower_bound v) (in_range_upper_bound v)

/-- Step 3 (lines 103-107): `in_partial_range_1 OR in_partial_range_2`. -/
def in_range (v : ℕ) : ℕ :=
  orBit (in_partial_range_1 v) (in_partial_range_2 v)

/-- Step 4 (lines 110-112): the constraint set of the gadget.  The loop
`for i in 0..N` asserts `in_range(a[i]) = 1` for each checked coefficient
(the constant-equality assertion of spec §4.2 step 6; the satisfying
assignments of the emitted constraints are exactly the inputs on which
every assertion holds, so the circuit is satisfiable iff this predicate
is true). -/
def constraintsHold (a : List ℕ) : Prop :=
  ∀ i < N, in_range (a.getD i 0) = 1

theorem in_range_iff (v : ℕ) :
    in_range v = 1 ↔ (v ≤ B ∨ (Q - B ≤ v ∧ v ≤ Q - 1)) := by
  unfold in_range orBit in_partial_range_1 in_partial_range_2 andBit
    in_range_lower_bound in_range_upper_bound notBit ltBit B Q
  split_ifs <;> simp <;> omega

/-- C1, counterexample.  The input coefficient vector `[0, 0, 0, 100]` has
the declared shape (length `N + 1 = 4`, a degree-`N` polynomial), its
leading coefficient `100` lies outside `[0,B] ∪ [Q-B,Q-1] =
[0,30] ∪ [226,255]`, yet every emitted constraint holds (the loop
`for i in 0..N` checks only indices `0..2`), contradicting the claim that
the assertion is enforced for every coefficient of the input polynomial
and that the gadget rejects every out-of-range value. -/
theorem c1_counterexample :
    ([0, 0, 0, 100] : List ℕ).length = N + 1 ∧
    constraintsHold [0, 0, 0, 100] ∧
    ¬ (([0, 0, 0, 100] : List ℕ).getD 3 0 ≤ B ∨
        (Q - B ≤ ([0, 0, 0, 100] : List ℕ).getD 3 0 ∧
         ([0, 0, 0, 100] : List ℕ).getD 3 0 ≤ Q - 1)) := by
  refine ⟨by decide, ?_, by decide⟩
  unfold constraintsHold
  decide

/-- C1 (amended): the constraint set of the range-membership gadget is
satisfiable iff each of the first `N` coefficients (indices `0..N-1`; the
loop `for i in 0..N` never reaches the leading coefficient of the
degree-`N` input) lies in `[0, B] ∪ [Q-B, Q-1]`; each checked coefficient
is constrained independently, and a checked coefficient outside the union
makes the constraint set unsatisfiable. -/
theorem c1_range_membership (a : List ℕ) :
    constraintsHold a ↔
      ∀ i < N, (a.getD i 0 ≤ B ∨
        (Q - B ≤ a.getD i 0 ∧ a.getD i 0 ≤ Q - 1)) := by
  unfold constraintsHold
  exact forall₂_congr fun i _ => in_range_iff _

end ChiError

namespace ChiKey

/-- Degree constant `N` of `check_poly_from_distribution_chi_key.rs:15`. -/
def N : ℕ := 3

/-- First factor (line 61): `coeff - 0`.  The field of the circuit is
ScalarField-generic in the source; it is embedded as `ZMod q` with `q` the
(prime) field modulus, per the source comment declaring `Q` the "modulus
of the field F_q" and the spec's prime-field data model. -/
def factor_1 (q : ℕ) (v : ZMod q) : ZMod q := v - 0

/-- Second factor (line 64): `coeff - 1`. -/
def factor_2 (q : ℕ) (v : ZMod q) : ZMod q := v - 1

/-- Third factor (line 67): `coeff - (q - 1)`, the constant `F::from(Q-1)`
of the source. -/
def factor_3 (q : ℕ) (v : ZMod q) : ZMod q := v - ((q - 1 : ℕ) : ZMod q)

/-- The vanishing product built by repeated multiplication (lines 70-73):
`((coeff - 0) * (coeff - 1)) * (coeff - (q-1))`; line 76 asserts it is
zero (spec §4.3: "assert the product is zero"). -/
def vanishing_product (q : ℕ) (v : ZMod q) : ZMod q :=
  (factor_1 q v * factor_2 q v) * factor_3 q v

/-- C3: over the prime field `F_q` the vanishing product of the
discrete-set gadget is zero iff the coefficient is `0`, `1` or `q - 1`:
a field has no zero divisors, so asserting
`(v - 0) * (v - 1) * (v - (q-1)) = 0` accepts exactly `v ∈ {0, 1, q-1}`
and is unsatisfiable for every other field element. -/
theorem c3_vanishing_product (q : ℕ) [Fact q.Prime] (v : ZMod q) :
    vanishing_product q v = 0 ↔
      (v = 0 ∨ v = 1 ∨ v = ((q - 1 : ℕ) : ZMod q)) := by
  unfold vanishing_product factor_1 factor_2 factor_3
  rw [mul_eq_zero, mul_eq_zero]
  rw [sub_zero, sub_eq_zero, sub_eq_zero]
  rw [or_assoc]

/-- Witness for C3 in the field `F_5`: the value `4 = 5 - 1` is accepted
(the vanishing product is zero). -/
theorem c3_vanishing_product_witness :
    vanishing_product 5 (4 : ZMod 5) = 0 := by
  haveI : Fact (Nat.Prime 5) := ⟨by norm_num⟩
  have h : (4 : ZMod 5) = ((5 - 1 : ℕ) : ZMod 5) := by norm_num
  exact (c3_vanishing_product 5 (4 : ZMod 5)).mpr (Or.inr (Or.inr h))

end ChiKey

namespace Conv

/-- Degree constant `N` of `poly_mul.rs:27`.  The convolution loops are
embedded for a general shared degree `n` because the same windowed loop
appears twice in the repository: with `n = N = 3` in `poly_mul.rs:73-98`
and with `n = M = 2` in `poly_divide_by_cyclo.rs:104-129`. -/
def N : ℕ := 3

/-- Index window of the inner loop for output index `i`: `0..=i` when
`i < n + 1`, and `(i-n)..=n` otherwise (the asymmetric split of the
source). -/
def window (n i : ℕ) : List ℕ :=
  if i < n + 1 then List.range' 0 (i + 1)
  else List.range' (i - n) (n + 1 - (i - n))

/-- Output coefficient `i`: the products `a[j] * b[i-j]` over the window,
accumulated by the `gate.add` fold that starts from a fresh zero witness
(`poly_mul.rs:93-95`). -/
def convCoeff (F : Type) [CommRing F] (n : ℕ) (a b : List F) (i : ℕ) : F :=
  ((window n i).map (fun j => a.getD j 0 * b.getD (i - j) 0)).foldl
    (fun acc x => acc + x) 0

/-- The full output sequence `prod_val` of the convolution gadget: one
coefficient for each `i in 0..(2 * n + 1)`. -/
def prod_val (F : Type) [CommRing F] (n : ℕ) (a b : List F) : List F :=
  (List.range (2 * n + 1)).map (convCoeff F n a b)

/-- `poly_mul` (`poly_mul.rs:40-103`): the two shape asserts
(`a.len() - 1 = b.len() - 1` and `a.len() - 1 = N`) abort construction
unless both inputs have the declared `N + 1` coefficients; otherwise the
convolution output is produced. -/
def poly_mul (F : Type) [CommRing F] (a b : List F) : Option (List F) :=
  if a.length - 1 = b.length - 1 ∧ a.length - 1 = N then
    some (prod_val F N a b)
  else none

theorem foldl_add_eq (F : Type) [CommRing F] :
    ∀ (l : List F) (a : F), l.foldl (fun acc x => acc + x) a = a + l.sum := by
  intro l
  induction l with
  | nil => intro a; simp
  | cons c t ih =>
    intro a
    show t.foldl (fun acc x => acc + x) (a + c) = a + (c :: t).sum
    rw [ih (a + c), List.sum_cons]
    ring

theorem sum_map_range' (F : Type) [CommRing F] (f : ℕ → F) :
    ∀ (len lo : ℕ),
      ((List.range' lo len).map f).sum = ∑ j in Finset.Ico lo (lo + len), f j := by
  intro len
  induction len with
  | zero => intro lo; simp
  | succ len ih =>
    intro lo
    rw [List.range'_succ, List.map_cons, List.sum_cons, ih (lo + 1)]
    have hb : lo + (len + 1) = lo + 1 + len := by omega
    rw [hb,
      Finset.sum_eq_sum_Ico_succ_bot (show lo < lo + 1 + len by omega) f]

theorem convCoeff_eq_sum (F : Type) [CommRing F] (n : ℕ) (a b : List F)
    (i : ℕ) (hi : i ≤ n + n) :
    convCoeff F n a b i
      = ∑ j in Finset.Icc (i - n) (min i n),
          a.getD j 0 * b.getD (i - j) 0 := by
  rw [convCoeff, foldl_add_eq, zero_add, window]
  by_cases h : i < n + 1
  · rw [if_pos h, sum_map_range' F _ (i + 1) 0]
    have h1 : i - n = 0 := by omega
    have h2 : min i n = i := by omega
    rw [h1, h2, ← Nat.Ico_succ_right, Nat.zero_add]
  · rw [if_neg h, sum_map_range' F _ (n + 1 - (i - n)) (i - n)]
    have h2 : min i n = n := by omega
    have h3 : i - n + (n + 1 - (i - n)) = n + 1 := by omega
    rw [h2, h3, Nat.Ico_succ_right]

/-- C6: for coefficient sequences `a` and `b` of the shared declared
length `n + 1` (the gadget requires equal degrees, so `n1 = n2 = n`), the
convolution gadget's output has length `n + n + 1` and its coefficient at
each index `i ≤ n + n` equals `Σ a[j] * b[i-j]` over the window
`max(0, i-n) ≤ j ≤ min(i, n)` (in `ℕ`, `max 0 (i - n) = i - n`),
reproducing the asymmetric windowing split at `i < n + 1`. -/
theorem c6_convolution (F : Type) [CommRing F] (n : ℕ) (a b : List F)
    (_ha : a.length = n + 1) (_hb : b.length = n + 1) :
    (prod_val F n a b).length = n + n + 1 ∧
    ∀ i ≤ n + n, (prod_val F n a b).getD i 0
      = ∑ j in Finset.Icc (i - n) (min i n),
          a.getD j 0 * b.getD (i - j) 0 := by
  constructor
  · rw [prod_val, List.length_map, List.length_range]
    omega
  · intro i hi
    have hlt : i < 2 * n + 1 := by omega
    rw [prod_val, List.getD_eq_getElem?_getD, List.getElem?_map,
      List.getElem?_range hlt]
    show convCoeff F n a b i = _
    exact convCoeff_eq_sum F n a b i hi

/-- Witness for C6 at the spec's example `a = [1,2]`, `b = [3,4]`
(degree 1): output length 3 and the middle coefficient matches the
windowed sum (`1*4 + 2*3 = 10`). -/
theorem c6_convolution_witness :
    (prod_val ℤ 1 [1, 2] [3, 4]).length = 1 + 1 + 1 ∧
    (prod_val ℤ 1 [1, 2] [3, 4]).getD 1 0
      = ∑ j in Finset.Icc (1 - 1) (min 1 1),
          ([1, 2] : List ℤ).getD j 0 * ([3, 4] : List ℤ).getD (1 - j) 0 :=
  ⟨(c6_convolution ℤ 1 [1, 2] [3, 4] rfl rfl).1,
   (c6_convolution ℤ 1 [1, 2] [3, 4] rfl rfl).2 1 (by decide)⟩

end Conv

namespace ScalarMul

/-- Degree constant `N` of `polyscalarmul.rs:22`. -/
def N : ℕ := 3

/-- `poly_scalar_mul` (`polyscalarmul.rs:31-55`).  No length validation is
performed on the input; the product loop is `for i in 0..(N - 1)`, reading
`a_assigned[0]`, ..., `a_assigned[N-2]` only, so construction aborts
(index out of bounds) iff `a.length < N - 1`, and otherwise produces the
tracked products `a[i] * k` for `i < N - 1`. -/
def poly_scalar_mul (F : Type) [CommRing F] (a : List F) (k : F) :
    Option (List F) :=
  if N - 1 ≤ a.length then
    some ((List.range (N - 1)).map (fun i => a.getD i 0 * k))
  else none

/-- The reference cross-check of `polyscalarmul.rs:57-75`: the arkworks
scalar product `a * k` is recomputed coefficient-wise and compared against
the in-circuit result with `zip` (which truncates to the shorter list; the
arkworks dense polynomial also drops trailing zero reference coefficients,
which only shortens the zip further and cannot make a passing check
fail). -/
def cross_check (F : Type) [CommRing F] (a : List F) (k : F)
    (res : List F) : Prop :=
  ∀ p ∈ res.zip (a.map (fun x => x * k)), p.1 = p.2

/-- C7, counterexample.  On the input polynomial `[1, 2, 3, 4]` of the
declared degree `N = 3` and scalar `2`, the gadget produces only
`[2, 4]` — the products for indices `0` and `1` — not the full window
`[2, 4, 6, 8]` for indices `0` through `N` claimed. -/
theorem c7_counterexample :
    poly_scalar_mul ℤ [1, 2, 3, 4] 2 = some [2, 4] ∧
    ([1, 2, 3, 4] : List ℤ).length = N + 1 ∧
    some [2, 4] ≠ some ([2, 4, 6, 8] : List ℤ) := by
  refine ⟨by decide, by decide, by decide⟩

/-- C7 (amended): for every input sequence long enough for the loop not to
abort (`N - 1 ≤ a.length`) and every scalar `k`, the gadget produces the
tracked value `a[i] * k` for the indices `0 ≤ i < N - 1` only (the loop
`for i in 0..(N-1)`; the output has `N - 1` coefficients, not the full
`N + 1` window), and the reference cross-check compares exactly those
produced coefficients against the recomputed scalar product and passes. -/
theorem c7_scalar_mul_window (F : Type) [CommRing F] (a : List F) (k : F)
    (h : N - 1 ≤ a.length) :
    ∃ out, poly_scalar_mul F a k = some out ∧
      out.length = N - 1 ∧
      (∀ i < N - 1, out.getD i 0 = a.getD i 0 * k) ∧
      cross_check F a k out := by
  refine ⟨(List.range (N - 1)).map (fun i => a.getD i 0 * k), ?_, ?_, ?_, ?_⟩
  · rw [poly_scalar_mul, if_pos h]
  · rw [List.length_map, List.length_range]
  · intro i hi
    rw [List.getD_eq_getElem?_getD, List.getElem?_map, List.getElem?_range hi]
    rfl
  · intro p hp
    rw [List.mem_iff_getElem] at hp
    obtain ⟨i, hilen, hpe⟩ := hp
    have hi1 : i < N - 1 := by
      have := hilen
      rw [List.length_zip, List.length_map, List.length_range] at this
      omega
    have hi2 : i < a.length := by omega
    rw [List.getElem_zip] at hpe
    rw [← hpe]
    simp only [List.getElem_map, List.getElem_range]
    rw [List.getD_eq_getElem a 0 (by omega)]

/-- Witness for C7 on the counterexample input: the gadget output exists,
has length `N - 1 = 2`, matches `a[i] * k` on indices `0` and `1`, and the
cross-check passes. -/
theorem c7_scalar_mul_window_witness :
    ∃ out, poly_scalar_mul ℤ [1, 2, 3, 4] 2 = some out ∧
      out.length = N - 1 ∧
      (∀ i < N - 1, out.getD i 0 = ([1, 2, 3, 4] : List ℤ).getD i 0 * 2) ∧
      cross_check ℤ [1, 2, 3, 4] 2 out :=
  c7_scalar_mul_window ℤ [1, 2, 3, 4] 2 (by decide)

end ScalarMul

namespace Assign

/-- Rust's `*x as u64` on an `i8` value, the cast used on every signed
coefficient before witness assignment
(`poly_divide_by_cyclo.rs:46,55,74,92`): sign extension, i.e. the
representative of `x` modulo `2^64`. -/
def i8_as_u64 (x : ℤ) : ℕ := (x % (2 ^ 64)).toNat

/-- `ctx.load_witness(F::from(*x as u64))`: the tracked value assigned for
a raw signed integer `x`, as an element of the prime field `ZMod q`. -/
def load_witness_i8 (q : ℕ) (x : ℤ) : ZMod q :=
  (i8_as_u64 x : ZMod q)

/-- The BN254 scalar-field modulus, the concrete `F` used by the examples
(`ark_bn254::Fr` in the reference cross-checks). -/
def bn254_r : ℕ :=
  21888242871839275222246405745257275088548364400416034343698204186575808495617

/-- C4, counterexample.  In the BN254 scalar field the raw integer `-1` is
assigned as `2^64 - 1` (the unsigned 64-bit reinterpretation), not as
`q - 1`: the tracked value differs from `-1` reduced modulo `q`. -/
theorem c4_counterexample :
    load_witness_i8 bn254_r (-1) ≠ ((bn254_r - 1 : ℕ) : ZMod bn254_r) := by
  decide

/-- C4 (amended): for a raw `i8` integer `x`, the assigned field element
is `x` reduced modulo `q` when `x ≥ 0`, but for `x < 0` it is
`(x + 2^64) mod q` — the unsigned 64-bit reinterpretation of `x` — which
equals `x mod q` only when `q` divides `2^64`; in particular `-1` is
assigned as `(2^64 - 1) mod q`, not `q - 1`. -/
theorem c4_assign_i8 (q : ℕ) (x : ℤ) (h1 : -128 ≤ x) (h2 : x ≤ 127) :
    (0 ≤ x → load_witness_i8 q x = (x : ZMod q)) ∧
    (x < 0 → load_witness_i8 q x = (x : ZMod q) + ((2 ^ 64 : ℕ) : ZMod q)) := by
  constructor
  · intro hx
    have hmod : x % (2 ^ 64) = x := by omega
    rw [load_witness_i8, i8_as_u64, hmod, ← Int.cast_natCast,
      Int.toNat_of_nonneg hx]
  · intro hx
    have hmod : x % (2 ^ 64) = x + 2 ^ 64 := by omega
    rw [load_witness_i8, i8_as_u64, hmod, ← Int.cast_natCast,
      Int.toNat_of_nonneg (show (0 : ℤ) ≤ x + 2 ^ 64 by omega)]
    push_cast
    ring

/-- Witness for C4 in the field `F_97`: `-1` is assigned as
`(-1 + 2^64) mod 97`. -/
theorem c4_assign_i8_witness :
    load_witness_i8 97 (-1) = ((-1 : ℤ) : ZMod 97) + ((2 ^ 64 : ℕ) : ZMod 97) :=
  (c4_assign_i8 97 (-1) (by norm_num) (by norm_num)).2 (by norm_num)

end Assign

namespace DivCircuit

/-- Degree constant `N` of `poly_divide_by_cyclo.rs:19`. -/
def N : ℕ := 4

/-- Divisor degree constant `M` of `poly_divide_by_cyclo.rs:20`. -/
def M : ℕ := 2

/-- Wire-level constraints emitted by the gate chip: `gate.mul ctx a b`
(resp. `gate.add`) assigns a fresh witness wire `c` and constrains
`a * b = c` (resp. `a + b = c`).  `ctx.load_witness` emits no
constraint. -/
inductive Constr where
  | mulC (a b c : ℕ)
  | addC (a b c : ℕ)
deriving DecidableEq

/-- The shared mutable build context: wire `i` was assigned value
`vals[i]`; `cs` is the list of emitted constraints, in emission order. -/
structure BCtx (F : Type) where
  vals : List F
  cs : List Constr
deriving DecidableEq

/-- A fresh build context. -/
def emptyCtx (F : Type) [CommRing F] : BCtx F := ⟨[], []⟩

/-- Value held by wire `i`. -/
def wireVal (F : Type) [CommRing F] (ctx : BCtx F) (i : ℕ) : F :=
  ctx.vals.getD i 0

/-- `ctx.load_witness(v)`: append one wire holding `v`, emit nothing,
return the new wire's index. -/
def load (F : Type) [CommRing F] (ctx : BCtx F) (v : F) : BCtx F × ℕ :=
  (⟨ctx.vals ++ [v], ctx.cs⟩, ctx.vals.length)

/-- `gate.mul(ctx, a, b)`: assign the product on a fresh wire and emit the
multiplication constraint. -/
def gmul (F : Type) [CommRing F] (ctx : BCtx F) (a b : ℕ) : BCtx F × ℕ :=
  (⟨ctx.vals ++ [wireVal F ctx a * wireVal F ctx b],
    ctx.cs ++ [Constr.mulC a b ctx.vals.length]⟩, ctx.vals.length)

/-- `gate.add(ctx, a, b)`: assign the sum on a fresh wire and emit the
addition constraint. -/
def gadd (F : Type) [CommRing F] (ctx : BCtx F) (a b : ℕ) : BCtx F × ℕ :=
  (⟨ctx.vals ++ [wireVal F ctx a + wireVal F ctx b],
    ctx.cs ++ [Constr.addC a b ctx.vals.length]⟩, ctx.vals.length)

/-- Load a list of raw values as consecutive witness wires, returning the
indices in order (the `.iter().map(|x| ctx.load_witness(..)).collect()`
pattern). -/
def loadList (F : Type) [CommRing F] (ctx : BCtx F) (vs : List F) :
    BCtx F × List ℕ :=
  vs.foldl (fun acc v =>
    let p := load F acc.1 v
    (p.1, acc.2 ++ [p.2])) (ctx, [])

/-- Semantics of one constraint under a wire assignment `w` (the prover's
witness column): the proof system accepts exactly the assignments
satisfying every emitted constraint. -/
def holds (F : Type) [CommRing F] (w : ℕ → F) : Constr → Prop
  | .mulC a b c => w a * w b = w c
  | .addC a b c => w a + w b = w c

instance decHolds (F : Type) [CommRing F] [DecidableEq F] (w : ℕ → F)
    (c : Constr) : Decidable (holds F w c) := by
  cases c with
  | mulC a b k => exact inferInstanceAs (Decidable (w a * w b = w k))
  | addC a b k => exact inferInstanceAs (Decidable (w a + w b = w k))

/-- Satisfaction of a whole constraint list. -/
def satAll (F : Type) [CommRing F] (w : ℕ → F) (cs : List Constr) : Prop :=
  ∀ c ∈ cs, holds F w c

/-- The raw-integer-to-field cast `F::from(*x as u64)` used on every
coefficient of this circuit. -/
def i8F (F : Type) [CommRing F] (x : ℤ) : F :=
  ((Assign.i8_as_u64 x : ℕ) : F)

/-- The products of one output index of the in-circuit convolution of
`quot_assigned * denom_assigned` (`poly_divide_by_cyclo.rs:105-122`):
`gate.mul` over the `i < M + 1` / `i ≥ M + 1` window. -/
def mulTerms (F : Type) [CommRing F] (ctx : BCtx F) (aIdx bIdx : List ℕ)
    (i : ℕ) : BCtx F × List ℕ :=
  (Conv.window M i).foldl (fun acc j =>
    let p := gmul F acc.1 (aIdx.getD j 0) (bIdx.getD (i - j) 0)
    (p.1, acc.2 ++ [p.2])) (ctx, [])

/-- The accumulation fold of lines 124-126: start from a freshly loaded
zero witness (`ctx.load_witness(F::zero())`, unconstrained) and
`gate.add` each product in. -/
def accumulate (F : Type) [CommRing F] (ctx : BCtx F) (terms : List ℕ) :
    BCtx F × ℕ :=
  let z := load F ctx 0
  terms.foldl (fun acc t =>
    let p := gadd F acc.1 acc.2 t
    (p.1, p.2)) (z.1, z.2)

/-- The whole convolution loop (lines 104-129), producing the `prod_val`
wires. -/
def convBuild (F : Type) [CommRing F] (ctx : BCtx F) (aIdx bIdx : List ℕ) :
    BCtx F × List ℕ :=
  (List.range (2 * M + 1)).foldl (fun acc i =>
    let t := mulTerms F acc.1 aIdx bIdx i
    let s := accumulate F t.1 t.2
    (s.1, acc.2 ++ [s.2])) (ctx, [])

/-- The `prod_val + rem_assigned` zip of lines 134-139 (`.take(2*N - 1)`,
`gate.add` coefficient-wise), producing the `sum_assigned` wires. -/
def sumBuild (F : Type) [CommRing F] (ctx : BCtx F)
    (prodIdx remIdx : List ℕ) : BCtx F × List ℕ :=
  ((prodIdx.zip remIdx).take (2 * N - 1)).foldl (fun acc pr =>
    let p := gadd F acc.1 pr.1 pr.2
    (p.1, acc.2 ++ [p.2])) (ctx, [])

/-- The wires produced by one run of `poly_divide_by_cyclo`, grouped by
role.  The final loop of the source (lines 144-146) compares the
`sum_assigned` wire VALUES against the raw `nominator` entries with a
native Rust `assert_eq!` on `sum.value().get_lower_32()`; it reads
witness values and emits no constraint, so it appears in no field of this
record's constraint list. -/
structure DivBuild (F : Type) where
  ctx : BCtx F
  nomIdx : List ℕ
  denomIdx : List ℕ
  quotIdx : List ℕ
  remIdx : List ℕ
  prodIdx : List ℕ
  sumIdx : List ℕ
deriving DecidableEq

/-- The body of `poly_divide_by_cyclo` (`poly_divide_by_cyclo.rs:30-149`)
after the shape asserts pass: assign nominator and denominator witnesses,
run the out-of-circuit `div_euclid` oracle, assign the quotient and the
zero-padded remainder as witnesses, emit the convolution and sum
constraints, and record the wire groups.  (`make_public` receives the
remainder wires except the last, line 97-99; it does not affect the
constraint list.) -/
def polyDivideCore (F : Type) [CommRing F] (nom denom : List ℤ) :
    DivBuild F :=
  let c1 := loadList F (emptyCtx F) (nom.map (i8F F))
  let c2 := loadList F c1.1 (denom.map (i8F F))
  let quot := Oracle.trimZeros (Oracle.divLoop denom nom).1
  let rem := Oracle.trimZeros (Oracle.divLoop denom nom).2
  let c3 := loadList F c2.1 (quot.map (i8F F))
  let c4 := loadList F c3.1 (List.replicate (nom.length - rem.length) 0)
  let c5 := loadList F c4.1 (rem.map (i8F F))
  let remIdx := c4.2 ++ c5.2
  let c6 := convBuild F c5.1 c3.2 c2.2
  let c7 := sumBuild F c6.1 c6.2 remIdx
  ⟨c7.1, c1.2, c2.2, c3.2, remIdx, c6.2, c7.2⟩

/-- `poly_divide_by_cyclo` with its aborts: the two degree asserts of
lines 37-39 and the zero-divisor panic inside `div_euclid` (which fires
at the line-68 call site, equally aborting construction). -/
def poly_divide_by_cyclo (F : Type) [CommRing F] (nom denom : List ℤ) :
    Option (DivBuild F) :=
  if nom.length - 1 = N ∧ denom.length - 1 = M
      ∧ (denom.isEmpty || denom.all (fun x => x == 0)) = false then
    some (polyDivideCore F nom denom)
  else none

/-- The build for the spec's example instance: dividend `x^4 + 1`
(`[1,0,0,0,1]`), divisor `x^2 + 1` (`[1,0,1]`), over the BN254 scalar
field used by the examples. -/
def exBuild : DivBuild (ZMod Assign.bn254_r) :=
  polyDivideCore (ZMod Assign.bn254_r) [1, 0, 0, 0, 1] [1, 0, 1]

/-- The honest prover's wire assignment: every wire holds the value the
builder assigned. -/
def honestW : ℕ → ZMod Assign.bn254_r := fun i =>
  exBuild.ctx.vals.getD i 0

/-- A dishonest assignment that changes every dividend (nominator) wire
(wires 0-4) and keeps all other wires. -/
def tamperW : ℕ → ZMod Assign.bn254_r := fun i =>
  if i < 5 then honestW i + 1 else honestW i

/-- C2: the quotient and remainder ARE assigned as tracked values and the
convolution/sum constraints ARE emitted (23 constraints: 9 `mul` and
14 `add`), but the final comparison of `quotient * divisor + remainder`
with the dividend is a native `assert_eq!` on witness values, not an
emitted constraint: the dividend wires `0..4` appear in no constraint, so
the dishonest assignment that changes every dividend wire still satisfies
the entire emitted constraint set.  The in-circuit identity check the
claim describes does not exist, and the proof-backed guarantee does rest
on the out-of-circuit computation. -/
theorem c2_identity_check_not_in_circuit :
    poly_divide_by_cyclo (ZMod Assign.bn254_r) [1, 0, 0, 0, 1] [1, 0, 1]
        = some exBuild ∧
    exBuild.nomIdx = [0, 1, 2, 3, 4] ∧
    exBuild.ctx.cs.length = 23 ∧
    satAll (ZMod Assign.bn254_r) honestW exBuild.ctx.cs ∧
    satAll (ZMod Assign.bn254_r) tamperW exBuild.ctx.cs ∧
    (∀ i ∈ exBuild.nomIdx, tamperW i ≠ honestW i) := by
  refine ⟨by decide, by decide, by decide, ?_, ?_, by decide⟩
  · unfold satAll
    decide
  · unfold satAll
    decide

end DivCircuit

/-- C8, counterexample.  `poly_scalar_mul` performs no length validation:
the length-6 input `[0,0,0,0,0,0]` does not match the declared degree
(`N + 1 = 4` coefficients), yet gadget construction completes normally
instead of aborting — the malformed input is silently accepted. -/
theorem c8_counterexample :
    (ScalarMul.poly_scalar_mul ℤ [0, 0, 0, 0, 0, 0] 1).isSome = true ∧
    ([0, 0, 0, 0, 0, 0] : List ℤ).length ≠ ScalarMul.N + 1 := by
  refine ⟨by decide, by decide⟩

/-- C8 (amended): `poly_mul` aborts construction unless both inputs have
exactly the declared `N + 1` coefficients, and `div_euclid` aborts on an
empty or all-zero divisor (it also aborts later in the loop on a
division by zero for a leading-zero divisor or on an `i8` overflow,
which the checked model's `none` equally covers); but not EVERY gadget
validates shape: `poly_scalar_mul` emits its constraints for any input
with at least `N - 1` coefficients, silently accepting sequences whose
length does not match the declared degree. -/
theorem c8_shape_checks :
    (∀ a b : List ℤ, (Conv.poly_mul ℤ a b).isSome = true ↔
      (a.length = Conv.N + 1 ∧ b.length = Conv.N + 1)) ∧
    (∀ f g : List ℤ, (g = [] ∨ ∀ x ∈ g, x = 0) →
      Oracle.divEuclidChk f g = none) ∧
    (∀ (a : List ℤ) (k : ℤ), ScalarMul.N - 1 ≤ a.length →
      (ScalarMul.poly_scalar_mul ℤ a k).isSome = true) := by
  have hN : Conv.N = 3 := rfl
  refine ⟨?_, ?_, ?_⟩
  · intro a b
    rw [Conv.poly_mul]
    split_ifs with hcond
    · simp only [Option.isSome_some, true_iff]
      omega
    · simp only [Option.isSome_none, Bool.false_eq_true, false_iff]
      omega
  · intro f g hzero
    rw [Oracle.divEuclidChk, if_pos]
    rcases hzero with hnil | hall
    · subst hnil
      simp
    · simp [List.isEmpty_iff, List.all_eq_true]
      exact Or.inr hall
  · intro a k h
    rw [ScalarMul.poly_scalar_mul, if_pos h]
    rfl

/-- Witness for C8: `poly_mul` on two well-shaped inputs is accepted, the
checked `div_euclid` aborts on the all-zero divisor `[0, 0]`, and
`poly_scalar_mul` completes on the length-6 input. -/
theorem c8_shape_checks_witness :
    (Conv.poly_mul ℤ [1, 2, 3, 4] [5, 6, 7, 8]).isSome = true ∧
    Oracle.divEuclidChk [1, 2] [0, 0] = none ∧
    (ScalarMul.poly_scalar_mul ℤ [0, 0, 0, 0, 0, 0] 2).isSome = true :=
  ⟨(c8_shape_checks.1 [1, 2, 3, 4] [5, 6, 7, 8]).mpr (by decide),
   c8_shape_checks.2.1 [1, 2] [0, 0] (Or.inr (by decide)),
   c8_shape_checks.2.2 [0, 0, 0, 0, 0, 0] 2 (by decide)⟩
